import Mathlib

set_option linter.unusedVariables false

/-! Verification of the barrel-import migration engine.

This file gives a shallow embedding of the core of
`src/migrate-barrel-imports.ts`: the export scanner `findExports`
(modelled by `scanItem` / `findExports` below) and the import rewriter
`updateImports` (modelled by `routeSpec` / `rewriteDecl` /
`processDecls` / `updateImports` below), plus the auxiliary-file
disambiguation step (`bestSourceFile`) found in the extended variant of
`updateImports`.  Parsing, globbing and the file system are external
collaborators; modules arrive here already parsed, as lists of the only
AST forms the tool inspects. -/

/-- Prefix test on character lists: `charsPrefix pat l` holds when `pat`
is an initial segment of `l` (model of JS `String.prototype.startsWith`). -/
def charsPrefix : List Char → List Char → Bool
  | [], _ => true
  | _ :: _, [] => false
  | a :: as, b :: bs => a = b && charsPrefix as bs

/-- Substring test on character lists (model of JS `String.prototype.includes`). -/
def charsSub (pat : List Char) : List Char → Bool
  | [] => charsPrefix pat []
  | a :: rest => charsPrefix pat (a :: rest) || charsSub pat rest

/-- `containsSub s pat` models `s.includes(pat)`. -/
def containsSub (s pat : String) : Bool := charsSub pat.data s.data

/-- `strStarts s pat` models `s.startsWith(pat)`. -/
def strStarts (s pat : String) : Bool := charsPrefix pat.data s.data

/-- `strEnds s pat` models `s.endsWith(pat)`. -/
def strEnds (s pat : String) : Bool := charsPrefix pat.data.reverse s.data.reverse

/-- The extension alternatives of the regex `/\.(js|jsx|ts|tsx|mjs|cjs)$/`
used when the `includeExtension` option is off. -/
def extensionList : List String := [".js", ".jsx", ".ts", ".tsx", ".mjs", ".cjs"]

/-- `stripExt` models `source.replace(/\.(js|jsx|ts|tsx|mjs|cjs)$/, '')`:
drop a final extension from that set, if present. -/
def stripExt (s : String) : String :=
  match extensionList.find? (fun e => strEnds s e) with
  | some e => String.mk (s.data.take (s.data.length - e.data.length))
  | none => s

/-- One record of the export catalog, mirroring interface `ExportInfo`:
the source file, the exported names it records, and the ignore flag. -/
structure ExportInfo where
  source : String
  exports : List String
  isIgnored : Bool
deriving DecidableEq, Repr

/-- The declaration attached to an `export` statement, as far as
`getExportNames` inspects it.  A variable declaration carries its
declarator ids (`none` for destructuring patterns); functions and
classes may be anonymous. -/
inductive Declaration
  | varDecl (ids : List (Option String))
  | funDecl (id : Option String)
  | enumDecl (id : String)
  | interfaceDecl (id : String)
  | typeAliasDecl (id : String)
  | classDecl (id : Option String)
  | otherDecl
deriving DecidableEq, Repr

/-- Mirror of `getExportNames`: the names a declaration node exports
(`none` models a null `declaration` field). -/
def getExportNames : Option Declaration → List String
  | none => []
  | some (.varDecl ids) => ids.filterMap id
  | some (.funDecl (some n)) => [n]
  | some (.funDecl none) => []
  | some (.enumDecl n) => [n]
  | some (.interfaceDecl n) => [n]
  | some (.typeAliasDecl n) => [n]
  | some (.classDecl (some n)) => [n]
  | some (.classDecl none) => []
  | some .otherDecl => []

/-- The expression of an `export default` declaration, as far as the
scanner inspects it: an identifier, a (possibly anonymous) function
declaration, a (possibly anonymous) class declaration, or anything else. -/
inductive DefaultExpr
  | ident (name : String)
  | namedFun (name : String)
  | anonFun
  | namedClass (name : String)
  | other
deriving DecidableEq, Repr

/-- Mirror of the name extraction in the `ExportDefaultDeclaration`
visitor: `isIdentifier(exported) ? exported.name :
isFunctionDeclaration(exported) && exported.id ? exported.id.name : null`. -/
def defaultExportName : DefaultExpr → Option String
  | .ident n => some n
  | .namedFun n => some n
  | .anonFun => none
  | .namedClass _ => none
  | .other => none

/-- A top-level module item.  Only the first two forms are visited by
the scanner's traversal (`ExportNamedDeclaration` and
`ExportDefaultDeclaration`); `export * from` is an
`ExportAllDeclaration` and is not visited at all (the flat-scan design),
and imports and other statements contribute nothing.
In `exportNamed`, `specifiers` lists the exported name of each
`ExportSpecifier` (`none` models a specifier that is not an
`ExportSpecifier` and is filtered out). -/
inductive ModuleItem
  | exportNamed (source : Option String) (declaration : Option Declaration)
      (specifiers : List (Option String))
  | exportDefault (declaration : DefaultExpr)
  | exportAll (source : String)
  | importItem (source : String)
  | otherItem
deriving DecidableEq, Repr

/-- Mirror of the external-re-export skip in `findExports`:
`sourceValue.includes('node_modules') || !sourceValue.startsWith('.')`
(with no `source` there is nothing to skip). -/
def externalSkip : Option String → Bool
  | none => false
  | some s => containsSub s "node_modules" || !(strStarts s ".")

/-- The `ExportInfo` records that one module item pushes onto the
catalog, mirroring the two visitor bodies of `findExports`: an external
re-export contributes nothing; otherwise the declaration names and the
specifier names are pushed as (up to) two records; a default export
contributes its extracted name, if any. -/
def scanItem (fn : String) (b : Bool) : ModuleItem → List ExportInfo
  | .exportNamed src dcl specs =>
    if externalSkip src then []
    else
      (if (getExportNames dcl).isEmpty then [] else [⟨fn, getExportNames dcl, b⟩]) ++
        (if (specs.filterMap id).isEmpty then [] else [⟨fn, specs.filterMap id, b⟩])
  | .exportDefault e =>
    match defaultExportName e with
    | some n => [⟨fn, [n], b⟩]
    | none => []
  | _ => []

/-- A source file of the scanned package: its path relative to the
package root and its parsed top-level items. -/
structure SourceFile where
  name : String
  items : List ModuleItem
deriving DecidableEq, Repr

/-- The records of one file, in item order. -/
def scanItems (fn : String) (b : Bool) : List ModuleItem → List ExportInfo
  | [] => []
  | it :: its => scanItem fn b it ++ scanItems fn b its

/-- Mirror of `findExports`: scan every file of the package in
enumeration order and concatenate the records.  `ignoreMatch` models
the micromatch test against the `ignoreSourceFiles` patterns. -/
def findExports (ignoreMatch : String → Bool) : List SourceFile → List ExportInfo
  | [] => []
  | f :: fs => scanItems f.name (ignoreMatch f.name) f.items ++ findExports ignoreMatch fs

/-- An import specifier of a consumer declaration: a named import
(`local`, `imported` — the imported name already extracted from the
identifier or string literal), a default import, or a namespace import. -/
inductive ImportSpec
  | named (localName importedName : String)
  | defaultSpec (localName : String)
  | namespaceSpec (localName : String)
deriving DecidableEq, Repr

/-- True exactly on `ImportSpecifier` nodes (mirror of `isImportSpecifier`). -/
def isNamedSpec : ImportSpec → Bool
  | .named _ _ => true
  | _ => false

/-- An import declaration of a consumer file. -/
structure ImportDecl where
  source : String
  specifiers : List ImportSpec
deriving DecidableEq, Repr

/-- The parameters `updateImports` threads through its traversal. -/
structure Ctx where
  exports : List ExportInfo
  includeExtension : Bool
  packageName : String
  filePath : String

/-- Mirror of the target computation
`includeExtension ? packageName + '/' + source : packageName + '/' + source.replace(...)`. -/
def mkImportPath (pkg : String) (includeExtension : Bool) (src : String) : String :=
  if includeExtension then pkg ++ "/" ++ src else pkg ++ "/" ++ stripExt src

/-- Mirror of the `isReExport` test in `updateImports`:
`exports.some((e) => e.source.includes('node_modules') || !e.source.startsWith('.'))`. -/
def hasExternalishSource (exports : List ExportInfo) : Bool :=
  exports.any fun e => containsSub e.source "node_modules" || !(strStarts e.source ".")

/-- The two warning templates of the unresolved-name branch of
`updateImports`, selected by the `isReExport` test. -/
def unresolvedWarning (isReExport : Bool) (importName filePath : String) : String :=
  if isReExport then
    "Skipping re-export from external package: " ++ importName ++ " in \"" ++ filePath ++ "\""
  else
    "Could not find export " ++ importName ++ " in " ++ filePath

/-- Where one specifier of a qualifying import declaration goes: into
the group keyed by a direct-file target, or into the remainder (with a
warning in the unresolved case). -/
inductive SpecRoute
  | toGroup (importPath localName importedName : String)
  | toRemainder (warning : Option String)
deriving DecidableEq, Repr

/-- Mirror of the per-specifier branch of `updateImports`: a named-import
specifier looks its imported name up with
`exports.find((e) => e.exports.includes(importName))`; a hit on an
ignored file, a miss (with warning), and any non-named specifier all go
to the remainder; otherwise the binding is grouped under the computed
direct-file path. -/
def routeSpec (c : Ctx) : ImportSpec → SpecRoute
  | .named l i =>
    match c.exports.find? (fun e => decide (i ∈ e.exports)) with
    | some e =>
      if e.isIgnored then .toRemainder none
      else .toGroup (mkImportPath c.packageName c.includeExtension e.source) l i
    | none =>
      .toRemainder (some (unresolvedWarning (hasExternalishSource c.exports) i c.filePath))
  | .defaultSpec _ => .toRemainder none
  | .namespaceSpec _ => .toRemainder none

/-- Insertion into the `importsBySource` map with JS `Map` semantics:
append to the existing key, else add the key at the end. -/
def insertGroup : List (String × List (String × String)) → String → (String × String) →
    List (String × List (String × String))
  | [], p, b => [(p, [b])]
  | (q, bs) :: rest, p, b =>
    if q = p then (q, bs ++ [b]) :: rest else (q, bs) :: insertGroup rest p b

/-- The loop state of the specifier scan of `updateImports`:
`importsBySource`, `remainingSpecifiers`, the warnings pushed so far,
and `hasDirectExports`. -/
structure ScanState where
  groups : List (String × List (String × String))
  remaining : List ImportSpec
  warnings : List String
  hasDirect : Bool
deriving DecidableEq, Repr

/-- One iteration of the specifier loop. -/
def stepSpec (c : Ctx) (st : ScanState) (s : ImportSpec) : ScanState :=
  match routeSpec c s with
  | .toGroup p l i => ⟨insertGroup st.groups p (l, i), st.remaining, st.warnings, true⟩
  | .toRemainder w => ⟨st.groups, st.remaining ++ [s], st.warnings ++ w.toList, st.hasDirect⟩

/-- The whole specifier loop, from the empty state. -/
def scanSpecs (c : Ctx) (ss : List ImportSpec) : ScanState :=
  ss.foldl (stepSpec c) ⟨[], [], [], false⟩

/-- Result of processing one qualifying import declaration: the
declarations that replace it, the contribution to `modified`, and the
warnings pushed. -/
structure RewriteResult where
  decls : List ImportDecl
  changed : Bool
  warnings : List String
deriving DecidableEq, Repr

/-- Mirror of the body of the `importSource === packageName` branch of
`updateImports`: scan the specifiers; with no direct exports keep the
original declaration; otherwise emit the remainder declaration first
(if non-empty, keyed by the package name) and then one declaration per
group in map insertion order. -/
def rewriteDecl (c : Ctx) (d : ImportDecl) : RewriteResult :=
  if (scanSpecs c d.specifiers).hasDirect then
    ⟨(if (scanSpecs c d.specifiers).remaining.isEmpty then []
        else [⟨c.packageName, (scanSpecs c d.specifiers).remaining⟩]) ++
        (scanSpecs c d.specifiers).groups.map
          (fun g => ⟨g.1, g.2.map (fun b => ImportSpec.named b.1 b.2)⟩),
      true, (scanSpecs c d.specifiers).warnings⟩
  else ⟨[d], false, (scanSpecs c d.specifiers).warnings⟩

/-- Result of processing one consumer file: its import declarations
after the run, the `modified` flag (the file is rewritten on disk iff it
is true), and the warnings pushed. -/
structure FileResult where
  decls : List ImportDecl
  modified : Bool
  warnings : List String
deriving DecidableEq, Repr

/-- Mirror of the `ImportDeclaration` traversal of `updateImports`:
declarations whose source is in `processedImports` are skipped, only a
declaration whose source is exactly the package name is rewritten, and
its source is then added to `processedImports`. -/
def processDecls (c : Ctx) : List ImportDecl → List String → FileResult
  | [], _ => ⟨[], false, []⟩
  | d :: ds, processed =>
    if d.source ∈ processed then
      ⟨d :: (processDecls c ds processed).decls, (processDecls c ds processed).modified,
        (processDecls c ds processed).warnings⟩
    else if d.source = c.packageName then
      ⟨(rewriteDecl c d).decls ++ (processDecls c ds (processed ++ [d.source])).decls,
        (rewriteDecl c d).changed || (processDecls c ds (processed ++ [d.source])).modified,
        (rewriteDecl c d).warnings ++ (processDecls c ds (processed ++ [d.source])).warnings⟩
    else
      ⟨d :: (processDecls c ds processed).decls, (processDecls c ds processed).modified,
        (processDecls c ds processed).warnings⟩

/-- `updateImports` on one consumer file, starting from an empty
`processedImports` set. -/
def updateImports (c : Ctx) (decls : List ImportDecl) : FileResult :=
  processDecls c decls []

/-- Mirror of the auxiliary-file test of the extended `updateImports`
variant: story, test and spec files are filtered out of the candidate
list when a better candidate exists. -/
def isAuxiliaryFile (f : String) : Bool :=
  containsSub f ".stories." || containsSub f ".test." || containsSub f ".spec." ||
    containsSub f ".stories/" || containsSub f ".test/" || containsSub f ".spec/"

/-- Mirror of the best-source selection of the extended `updateImports`
variant: default to the first candidate; with more than one candidate
prefer the first non-auxiliary one when any exists. -/
def bestSourceFile (exportFiles : List String) : Option String :=
  let best := exportFiles.head?
  if 1 < exportFiles.length then
    let mainFiles := exportFiles.filter (fun f => !(isAuxiliaryFile f))
    if 0 < mainFiles.length then mainFiles.head? else best
  else best

/-- Declarative view of one specifier's routing: its target path and
binding, when it is grouped. -/
def specTargetBinding (c : Ctx) (s : ImportSpec) : Option (String × (String × String)) :=
  match routeSpec c s with
  | .toGroup p l i => some (p, (l, i))
  | .toRemainder _ => none

/-- The target path alone. -/
def specTarget (c : Ctx) (s : ImportSpec) : Option String :=
  (specTargetBinding c s).map Prod.fst

/-- The warning one specifier pushes, if any. -/
def specWarning (c : Ctx) (s : ImportSpec) : Option String :=
  match routeSpec c s with
  | .toRemainder w => w
  | .toGroup _ _ _ => none

/-- The grouped (target, binding) pairs of a specifier list, in scan order. -/
def groupPairs (c : Ctx) (ss : List ImportSpec) : List (String × (String × String)) :=
  ss.filterMap (specTargetBinding c)

/-- The specifiers that stay in the remainder, in scan order. -/
def remainingOf (c : Ctx) (ss : List ImportSpec) : List ImportSpec :=
  ss.filter (fun s => (specTarget c s).isNone)

/-- The warnings of a specifier list, in scan order. -/
def warningsOf (c : Ctx) (ss : List ImportSpec) : List String :=
  ss.filterMap (specWarning c)

/-- Whether some specifier is routed to a direct-file group. -/
def anyDirect (c : Ctx) (ss : List ImportSpec) : Bool :=
  ss.any (fun s => (specTarget c s).isSome)

/-- Accumulate grouped pairs into a map (JS `Map` semantics). -/
def insertAll (gs : List (String × List (String × String)))
    (ps : List (String × (String × String))) : List (String × List (String × String)) :=
  ps.foldl (fun gs pb => insertGroup gs pb.1 pb.2) gs

/-- First-occurrence insertion used to state map key order declaratively. -/
def occInsert (acc : List String) (a : String) : List String :=
  if a ∈ acc then acc else acc ++ [a]

/-- The distinct elements of a list, in order of first occurrence. -/
def occOrder (l : List String) : List String :=
  l.foldl occInsert []

/-- Decidable statement that a name occurs in the scanned package only
as a re-export from an external specifier: no direct declaration, no
internal named re-export, no default export of it anywhere. -/
def noInternalOccurrence (n : String) (files : List SourceFile) : Bool :=
  files.all fun f => f.items.all fun it =>
    match it with
    | .exportNamed src dcl specs =>
      externalSkip src ||
        (decide (n ∉ getExportNames dcl) && decide (n ∉ specs.filterMap id))
    | .exportDefault e => decide (defaultExportName e ≠ some n)
    | _ => true

/-- The names the scanner records for one item (used to state
uniqueness hypotheses at the source level). -/
def itemNames : ModuleItem → List String
  | .exportNamed src dcl specs =>
    if externalSkip src then [] else getExportNames dcl ++ specs.filterMap id
  | .exportDefault e => (defaultExportName e).toList
  | _ => []

/-- The names one item directly declares (no re-export source). -/
def directNames : ModuleItem → List String
  | .exportNamed none dcl specs => getExportNames dcl ++ specs.filterMap id
  | .exportNamed (some _) _ _ => []
  | .exportDefault e => (defaultExportName e).toList
  | _ => []

theorem list_concat_induction {α : Type} {motive : List α → Prop} (h0 : motive [])
    (h1 : ∀ (l : List α) (a : α), motive l → motive (l ++ [a])) : ∀ l, motive l := by
  have key : ∀ r : List α, motive r.reverse := by
    intro r
    induction r with
    | nil => exact h0
    | cons a r ih => simpa using h1 r.reverse a ih
  intro l
  simpa using key l.reverse

theorem mem_foldl_occInsert (l : List String) :
    ∀ (acc : List String) (x : String), x ∈ l.foldl occInsert acc ↔ x ∈ acc ∨ x ∈ l := by
  induction l with
  | nil => simp
  | cons a l ih =>
    intro acc x
    rw [List.foldl_cons, ih]
    unfold occInsert
    by_cases h : a ∈ acc
    · simp only [if_pos h, List.mem_cons]
      constructor
      · rintro (hx | hx)
        · exact Or.inl hx
        · exact Or.inr (Or.inr hx)
      · rintro (hx | hx | hx)
        · exact Or.inl hx
        · exact Or.inl (hx ▸ h)
        · exact Or.inr hx
    · simp only [if_neg h, List.mem_append, List.mem_singleton, List.mem_cons]
      tauto

theorem nodup_foldl_occInsert (l : List String) :
    ∀ acc : List String, acc.Nodup → (l.foldl occInsert acc).Nodup := by
  induction l with
  | nil => intro acc h; simpa using h
  | cons a l ih =>
    intro acc h
    rw [List.foldl_cons]
    apply ih
    unfold occInsert
    by_cases ha : a ∈ acc
    · simpa [ha] using h
    · rw [if_neg ha, List.nodup_append]
      refine ⟨h, List.nodup_singleton a, ?_⟩
      intro x hx hx1
      rcases List.mem_singleton.mp hx1 with rfl
      exact ha hx

theorem mem_occOrder (l : List String) (x : String) : x ∈ occOrder l ↔ x ∈ l := by
  unfold occOrder
  rw [mem_foldl_occInsert]
  simp

theorem occOrder_nodup (l : List String) : (occOrder l).Nodup :=
  nodup_foldl_occInsert l [] List.nodup_nil

theorem occOrder_append_singleton (l : List String) (a : String) :
    occOrder (l ++ [a]) = if a ∈ l then occOrder l else occOrder l ++ [a] := by
  have h1 : occOrder (l ++ [a]) = occInsert (occOrder l) a := by
    unfold occOrder
    rw [List.foldl_append]
    rfl
  rw [h1]
  unfold occInsert
  by_cases h : a ∈ l
  · rw [if_pos ((mem_occOrder l a).mpr h), if_pos h]
  · rw [if_neg (fun hc => h ((mem_occOrder l a).mp hc)), if_neg h]

theorem filter_eq_nil_of_not_mem_fst (ps : List (String × (String × String))) (p : String)
    (h : p ∉ ps.map Prod.fst) : ps.filter (fun pb => pb.1 == p) = [] := by
  induction ps with
  | nil => rfl
  | cons pb ps ih =>
    simp only [List.map_cons, List.mem_cons] at h
    push_neg at h
    have h1 : (pb.1 == p) = false := by
      simp only [beq_eq_false_iff_ne, ne_eq]
      exact fun hc => h.1 hc.symm
    simp [List.filter_cons, h1, ih h.2]

theorem insertGroup_map (ks : List String) (F : String → List (String × String))
    (p : String) (b : String × String) (hks : ks.Nodup) :
    insertGroup (ks.map fun q => (q, F q)) p b =
      if p ∈ ks then ks.map (fun q => (q, F q ++ if q = p then [b] else []))
      else (ks.map fun q => (q, F q)) ++ [(p, [b])] := by
  induction ks with
  | nil => simp [insertGroup]
  | cons k ks ih =>
    have hk : k ∉ ks := (List.nodup_cons.mp hks).1
    have hks2 : ks.Nodup := (List.nodup_cons.mp hks).2
    rw [List.map_cons]
    by_cases hkp : k = p
    · subst hkp
      have hins : insertGroup ((k, F k) :: ks.map fun q => (q, F q)) k b
          = (k, F k ++ [b]) :: ks.map (fun q => (q, F q)) := by
        simp [insertGroup]
      rw [hins, if_pos (List.mem_cons_self k ks), List.map_cons]
      congr 1
      · simp
      · apply List.map_congr_left
        intro q hq
        have hne : q ≠ k := fun hqk => hk (hqk ▸ hq)
        simp [hne]
    · have hins : insertGroup ((k, F k) :: ks.map fun q => (q, F q)) p b
          = (k, F k) :: insertGroup (ks.map fun q => (q, F q)) p b := by
        simp [insertGroup, hkp]
      rw [hins, ih hks2]
      by_cases hp : p ∈ ks
      · rw [if_pos hp, if_pos (List.mem_cons_of_mem k hp), List.map_cons]
        simp [hkp]
      · have hmem : p ∉ k :: ks := by
          simp only [List.mem_cons]
          push_neg
          exact ⟨fun h => hkp h.symm, hp⟩
        rw [if_neg hp, if_neg hmem]
        rfl

theorem insertAll_append (gs : List (String × List (String × String)))
    (ps : List (String × (String × String))) (pb : String × (String × String)) :
    insertAll gs (ps ++ [pb]) = insertGroup (insertAll gs ps) pb.1 pb.2 := by
  unfold insertAll
  rw [List.foldl_append]
  rfl

theorem insertAll_nil_eq (ps : List (String × (String × String))) :
    insertAll [] ps =
      (occOrder (ps.map Prod.fst)).map
        (fun p => (p, (ps.filter (fun pb => pb.1 == p)).map Prod.snd)) := by
  induction ps using list_concat_induction with
  | h0 => simp [insertAll, occOrder]
  | h1 ps pb ih =>
    rw [insertAll_append, ih]
    rw [insertGroup_map _ _ _ _ (occOrder_nodup _)]
    have hmaps : (ps ++ [pb]).map Prod.fst = ps.map Prod.fst ++ [pb.1] := by
      simp
    by_cases hp : pb.1 ∈ ps.map Prod.fst
    · have hpo : pb.1 ∈ occOrder (ps.map Prod.fst) := (mem_occOrder _ _).mpr hp
      rw [if_pos hpo, hmaps, occOrder_append_singleton, if_pos hp]
      apply List.map_congr_left
      intro q hq
      have hfil : (ps ++ [pb]).filter (fun x => x.1 == q) =
          ps.filter (fun x => x.1 == q) ++ if pb.1 == q then [pb] else [] := by
        rw [List.filter_append]
        congr 1
        simp [List.filter_cons]
      rw [hfil]
      by_cases hqp : q = pb.1
      · subst hqp
        simp
      · have : (pb.1 == q) = false := by
          simp only [beq_eq_false_iff_ne, ne_eq]
          exact fun h => hqp h.symm
        simp [this, hqp]
    · have hpo : pb.1 ∉ occOrder (ps.map Prod.fst) := fun h => hp ((mem_occOrder _ _).mp h)
      rw [if_neg hpo, hmaps, occOrder_append_singleton, if_neg hp, List.map_append]
      congr 1
      · apply List.map_congr_left
        intro q hq
        have hqmem : q ∈ ps.map Prod.fst := (mem_occOrder _ _).mp hq
        have hqp : pb.1 ≠ q := fun h => hp (h ▸ hqmem)
        have hb : (pb.1 == q) = false := by simpa using hqp
        have hfil : (ps ++ [pb]).filter (fun x => x.1 == q) = ps.filter (fun x => x.1 == q) := by
          rw [List.filter_append]
          simp [List.filter_cons, hb]
        rw [hfil]
      · have hfilnil : ps.filter (fun x => x.1 == pb.1) = [] :=
          filter_eq_nil_of_not_mem_fst ps pb.1 hp
        have hfil : (ps ++ [pb]).filter (fun x => x.1 == pb.1) = [pb] := by
          rw [List.filter_append, hfilnil]
          simp [List.filter_cons]
        simp only [List.map_cons, List.map_nil]
        rw [hfil]
        simp

theorem scan_groups (c : Ctx) (ss : List ImportSpec) :
    ∀ st : ScanState, (ss.foldl (stepSpec c) st).groups = insertAll st.groups (groupPairs c ss) := by
  induction ss with
  | nil => intro st; simp [groupPairs, insertAll]
  | cons s ss ih =>
    intro st
    rw [List.foldl_cons, ih]
    rcases hr : routeSpec c s with ⟨p, l, i⟩ | w
    · have ht : specTargetBinding c s = some (p, (l, i)) := by simp [specTargetBinding, hr]
      simp [stepSpec, hr, groupPairs, List.filterMap_cons, ht, insertAll]
    · have ht : specTargetBinding c s = none := by simp [specTargetBinding, hr]
      simp [stepSpec, hr, groupPairs, List.filterMap_cons, ht]

theorem scan_remaining (c : Ctx) (ss : List ImportSpec) :
    ∀ st : ScanState, (ss.foldl (stepSpec c) st).remaining = st.remaining ++ remainingOf c ss := by
  induction ss with
  | nil => intro st; simp [remainingOf]
  | cons s ss ih =>
    intro st
    rw [List.foldl_cons, ih]
    rcases hr : routeSpec c s with ⟨p, l, i⟩ | w
    · have ht : specTarget c s = some p := by simp [specTarget, specTargetBinding, hr]
      simp [stepSpec, hr, remainingOf, List.filter_cons, ht]
    · have ht : specTarget c s = none := by simp [specTarget, specTargetBinding, hr]
      simp [stepSpec, hr, remainingOf, List.filter_cons, ht]

theorem scan_warnings (c : Ctx) (ss : List ImportSpec) :
    ∀ st : ScanState, (ss.foldl (stepSpec c) st).warnings = st.warnings ++ warningsOf c ss := by
  induction ss with
  | nil => intro st; simp [warningsOf]
  | cons s ss ih =>
    intro st
    rw [List.foldl_cons, ih]
    rcases hr : routeSpec c s with ⟨p, l, i⟩ | w
    · have ht : specWarning c s = none := by simp [specWarning, hr]
      simp [stepSpec, hr, warningsOf, List.filterMap_cons, ht]
    · have ht : specWarning c s = w := by simp [specWarning, hr]
      cases w with
      | none => simp [stepSpec, hr, warningsOf, List.filterMap_cons, ht]
      | some x => simp [stepSpec, hr, warningsOf, List.filterMap_cons, ht]

theorem scan_hasDirect (c : Ctx) (ss : List ImportSpec) :
    ∀ st : ScanState, (ss.foldl (stepSpec c) st).hasDirect = (st.hasDirect || anyDirect c ss) := by
  induction ss with
  | nil => intro st; simp [anyDirect]
  | cons s ss ih =>
    intro st
    rw [List.foldl_cons, ih]
    rcases hr : routeSpec c s with ⟨p, l, i⟩ | w
    · have ht : specTarget c s = some p := by simp [specTarget, specTargetBinding, hr]
      simp [stepSpec, hr, anyDirect, List.any_cons, ht]
    · have ht : specTarget c s = none := by simp [specTarget, specTargetBinding, hr]
      simp [stepSpec, hr, anyDirect, List.any_cons, ht]

theorem scanSpecs_groups (c : Ctx) (ss : List ImportSpec) :
    (scanSpecs c ss).groups =
      (occOrder ((groupPairs c ss).map Prod.fst)).map
        (fun p => (p, ((groupPairs c ss).filter (fun pb => pb.1 == p)).map Prod.snd)) := by
  unfold scanSpecs
  rw [scan_groups]
  exact insertAll_nil_eq _

theorem scanSpecs_remaining (c : Ctx) (ss : List ImportSpec) :
    (scanSpecs c ss).remaining = remainingOf c ss := by
  unfold scanSpecs
  rw [scan_remaining]
  rfl

theorem scanSpecs_warnings (c : Ctx) (ss : List ImportSpec) :
    (scanSpecs c ss).warnings = warningsOf c ss := by
  unfold scanSpecs
  rw [scan_warnings]
  rfl

theorem scanSpecs_hasDirect (c : Ctx) (ss : List ImportSpec) :
    (scanSpecs c ss).hasDirect = anyDirect c ss := by
  unfold scanSpecs
  rw [scan_hasDirect]
  rfl

theorem rewriteDecl_pos (c : Ctx) (d : ImportDecl) (h : anyDirect c d.specifiers = true) :
    rewriteDecl c d =
      ⟨(if (remainingOf c d.specifiers).isEmpty then []
          else [⟨c.packageName, remainingOf c d.specifiers⟩]) ++
        (occOrder ((groupPairs c d.specifiers).map Prod.fst)).map
          (fun p => ⟨p, ((groupPairs c d.specifiers).filter (fun pb => pb.1 == p)).map
            (fun pb => ImportSpec.named pb.2.1 pb.2.2)⟩),
        true, warningsOf c d.specifiers⟩ := by
  have hh : (scanSpecs c d.specifiers).hasDirect = true := by
    rw [scanSpecs_hasDirect]; exact h
  unfold rewriteDecl
  rw [if_pos hh, scanSpecs_remaining, scanSpecs_warnings, scanSpecs_groups]
  congr 1
  rw [List.map_map]
  congr 1
  apply List.map_congr_left
  intro p hp
  simp only [Function.comp]
  rw [List.map_map]
  rfl

theorem rewriteDecl_neg (c : Ctx) (d : ImportDecl) (h : anyDirect c d.specifiers = false) :
    rewriteDecl c d = ⟨[d], false, warningsOf c d.specifiers⟩ := by
  have hh : ¬ (scanSpecs c d.specifiers).hasDirect = true := by
    rw [scanSpecs_hasDirect, h]; exact Bool.false_ne_true
  unfold rewriteDecl
  rw [if_neg hh, scanSpecs_warnings]

theorem rewriteDecl_changed (c : Ctx) (d : ImportDecl) :
    (rewriteDecl c d).changed = anyDirect c d.specifiers := by
  by_cases h : anyDirect c d.specifiers = true
  · rw [rewriteDecl_pos c d h, h]
  · have h2 : anyDirect c d.specifiers = false := Bool.eq_false_iff.mpr h
    rw [rewriteDecl_neg c d h2, h2]

theorem specTargetBinding_toGroup (c : Ctx) (s : ImportSpec) (p l i : String)
    (h : specTargetBinding c s = some (p, (l, i))) : routeSpec c s = .toGroup p l i := by
  unfold specTargetBinding at h
  rcases hr : routeSpec c s with ⟨p0, l0, i0⟩ | w <;> rw [hr] at h
  · simp only [Option.some.injEq, Prod.mk.injEq] at h
    rw [h.1, h.2.1, h.2.2]
  · cases h

theorem routeSpec_toGroup_named (c : Ctx) (s : ImportSpec) (p l i : String)
    (h : routeSpec c s = .toGroup p l i) :
    s = .named l i ∧ ∃ src, p = mkImportPath c.packageName c.includeExtension src := by
  cases s with
  | named l0 i0 =>
    have he : routeSpec c (ImportSpec.named l0 i0)
        = (match c.exports.find? (fun e => decide (i0 ∈ e.exports)) with
          | some e =>
            if e.isIgnored then SpecRoute.toRemainder none
            else SpecRoute.toGroup (mkImportPath c.packageName c.includeExtension e.source) l0 i0
          | none =>
            SpecRoute.toRemainder
              (some (unresolvedWarning (hasExternalishSource c.exports) i0 c.filePath))) := rfl
    rw [he] at h
    split at h
    · split at h
      · exact SpecRoute.noConfusion h
      · simp only [SpecRoute.toGroup.injEq] at h
        refine ⟨by rw [h.2.1, h.2.2], ?_⟩
        exact ⟨_, h.1.symm⟩
    · exact SpecRoute.noConfusion h
  | defaultSpec l0 => exact SpecRoute.noConfusion h
  | namespaceSpec l0 => exact SpecRoute.noConfusion h

theorem mkImportPath_length (pkg : String) (ie : Bool) (src : String) :
    pkg.length < (mkImportPath pkg ie src).length := by
  unfold mkImportPath
  cases ie with
  | true =>
    rw [if_pos rfl]
    rw [String.length_append, String.length_append]
    have h1 : (1 : Nat) ≤ "/".length := by decide
    omega
  | false =>
    rw [if_neg Bool.false_ne_true]
    rw [String.length_append, String.length_append]
    have h1 : (1 : Nat) ≤ "/".length := by decide
    omega

theorem mkImportPath_ne (pkg : String) (ie : Bool) (src : String) :
    mkImportPath pkg ie src ≠ pkg := by
  intro h
  have := mkImportPath_length pkg ie src
  rw [h] at this
  omega

theorem mem_groupPairs_route (c : Ctx) (ss : List ImportSpec) (p l i : String)
    (h : (p, (l, i)) ∈ groupPairs c ss) :
    ImportSpec.named l i ∈ ss ∧ routeSpec c (ImportSpec.named l i) = .toGroup p l i := by
  unfold groupPairs at h
  rcases List.mem_filterMap.mp h with ⟨s1, hs1, hroute⟩
  have hr : routeSpec c s1 = .toGroup p l i := specTargetBinding_toGroup c s1 p l i hroute
  have hshape := routeSpec_toGroup_named c s1 p l i hr
  rw [hshape.1] at hs1 hr
  exact ⟨hs1, hr⟩

theorem mem_remainder_decl (c : Ctx) (d : ImportDecl) (hd : d.source = c.packageName)
    (s : ImportSpec) (hs : s ∈ d.specifiers) (hnone : specTarget c s = none) :
    (∃ dd ∈ (rewriteDecl c d).decls, dd.source = c.packageName ∧ s ∈ dd.specifiers) ∧
      (∀ dd ∈ (rewriteDecl c d).decls, dd.source ≠ c.packageName → s ∉ dd.specifiers) := by
  by_cases h : anyDirect c d.specifiers = true
  · rw [rewriteDecl_pos c d h]
    have hsrem : s ∈ remainingOf c d.specifiers :=
      List.mem_filter.mpr ⟨hs, by rw [hnone]; rfl⟩
    have hnn : remainingOf c d.specifiers ≠ [] := List.ne_nil_of_mem hsrem
    have hie : (remainingOf c d.specifiers).isEmpty = false := by
      cases hrem : remainingOf c d.specifiers with
      | nil => exact absurd hrem hnn
      | cons a as => rfl
    constructor
    · refine ⟨⟨c.packageName, remainingOf c d.specifiers⟩, ?_, rfl, hsrem⟩
      apply List.mem_append.mpr
      left
      rw [hie]
      exact List.mem_singleton.mpr rfl
    · intro dd hdd hddne hmem
      rcases List.mem_append.mp hdd with hleft | hright
      · rw [hie] at hleft
        rcases List.mem_singleton.mp hleft with rfl
        exact hddne rfl
      · rcases List.mem_map.mp hright with ⟨p, hpmem, hpeq⟩
        rw [← hpeq] at hmem
        simp only at hmem
        rcases List.mem_map.mp hmem with ⟨pb, hpbmem, hpbeq⟩
        have hpb2 : (pb.1, (pb.2.1, pb.2.2)) ∈ groupPairs c d.specifiers := by
          have := (List.mem_filter.mp hpbmem).1
          simpa using this
        have hroute := mem_groupPairs_route c d.specifiers pb.1 pb.2.1 pb.2.2 hpb2
        rw [← hpbeq] at hnone
        unfold specTarget specTargetBinding at hnone
        rw [hroute.2] at hnone
        cases hnone
  · have h2 : anyDirect c d.specifiers = false := Bool.eq_false_iff.mpr h
    rw [rewriteDecl_neg c d h2]
    constructor
    · exact ⟨d, List.mem_singleton.mpr rfl, hd, hs⟩
    · intro dd hdd hne
      rcases List.mem_singleton.mp hdd with rfl
      exact absurd hd hne

theorem processDecls_skipAll (c : Ctx) (ds : List ImportDecl) :
    ∀ processed : List String, c.packageName ∈ processed →
      processDecls c ds processed = ⟨ds, false, []⟩ := by
  induction ds with
  | nil => intro pr h; rfl
  | cons d ds ih =>
    intro pr h
    simp only [processDecls]
    by_cases h1 : d.source ∈ pr
    · rw [if_pos h1, ih pr h]
    · have h2 : ¬ d.source = c.packageName := fun hc => h1 (hc ▸ h)
      rw [if_neg h1, if_neg h2, ih pr h]

theorem processDecls_noPkg (c : Ctx) (ds : List ImportDecl)
    (h : ∀ d ∈ ds, d.source ≠ c.packageName) :
    ∀ processed : List String, processDecls c ds processed = ⟨ds, false, []⟩ := by
  induction ds with
  | nil => intro pr; rfl
  | cons d ds ih =>
    intro pr
    have hd : d.source ≠ c.packageName := h d (List.mem_cons_self d ds)
    have hrest : ∀ x ∈ ds, x.source ≠ c.packageName := fun x hx => h x (List.mem_cons_of_mem d hx)
    simp only [processDecls]
    by_cases h1 : d.source ∈ pr
    · rw [if_pos h1, ih hrest pr]
    · rw [if_neg h1, if_neg hd, ih hrest pr]

theorem processDecls_split (c : Ctx) (pre : List ImportDecl) (d : ImportDecl)
    (post : List ImportDecl) (hpre : ∀ x ∈ pre, x.source ≠ c.packageName)
    (hd : d.source = c.packageName) :
    processDecls c (pre ++ d :: post) [] =
      ⟨pre ++ (rewriteDecl c d).decls ++ post,
        (rewriteDecl c d).changed, (rewriteDecl c d).warnings⟩ := by
  induction pre with
  | nil =>
    simp only [List.nil_append, processDecls]
    have h1 : d.source ∉ ([] : List String) := List.not_mem_nil d.source
    rw [if_neg h1, if_pos hd]
    have h2 : c.packageName ∈ [d.source] := by
      rw [hd]
      exact List.mem_singleton.mpr rfl
    rw [processDecls_skipAll c post [d.source] h2]
    simp
  | cons a pre ih =>
    have ha : a.source ≠ c.packageName := hpre a (List.mem_cons_self a pre)
    have hrest : ∀ x ∈ pre, x.source ≠ c.packageName :=
      fun x hx => hpre x (List.mem_cons_of_mem a hx)
    simp only [List.cons_append, processDecls]
    have h1 : a.source ∉ ([] : List String) := List.not_mem_nil a.source
    rw [if_neg h1, if_neg ha]
    simp only [List.append_eq]
    rw [ih hrest]

theorem exists_first_pkg_split (pkg : String) (ds : List ImportDecl) :
    (∀ d ∈ ds, d.source ≠ pkg) ∨
      ∃ pre d post, ds = pre ++ d :: post ∧ d.source = pkg ∧ ∀ x ∈ pre, x.source ≠ pkg := by
  induction ds with
  | nil => left; intro d hd; cases hd
  | cons a ds ih =>
    by_cases ha : a.source = pkg
    · right
      exact ⟨[], a, ds, by simp, ha, by intro x hx; cases hx⟩
    · rcases ih with h | ⟨pre, d, post, hds, hd, hpre⟩
      · left
        intro d hd
        rcases List.mem_cons.mp hd with rfl | hmem
        · exact ha
        · exact h d hmem
      · right
        refine ⟨a :: pre, d, post, by rw [hds]; rfl, hd, ?_⟩
        intro x hx
        rcases List.mem_cons.mp hx with rfl | hmem
        · exact ha
        · exact hpre x hmem

theorem find_pkg_of_split (pkg : String) (pre : List ImportDecl) (d : ImportDecl)
    (post : List ImportDecl) (hpre : ∀ x ∈ pre, x.source ≠ pkg) (hd : d.source = pkg) :
    (pre ++ d :: post).find? (fun x => x.source == pkg) = some d := by
  induction pre with
  | nil =>
    rw [List.nil_append]
    exact List.find?_cons_of_pos _ (by simp [hd])
  | cons a pre ih =>
    rw [List.cons_append]
    rw [List.find?_cons_of_neg _ (by simp [hpre a (List.mem_cons_self a pre)])]
    exact ih fun x hx => hpre x (List.mem_cons_of_mem a hx)

theorem mem_findExports (ig : String → Bool) (files : List SourceFile) (e : ExportInfo)
    (h : e ∈ findExports ig files) :
    ∃ f ∈ files, e ∈ scanItems f.name (ig f.name) f.items := by
  induction files with
  | nil => cases h
  | cons f fs ih =>
    simp only [findExports] at h
    rcases List.mem_append.mp h with h1 | h2
    · exact ⟨f, List.mem_cons_self f fs, h1⟩
    · rcases ih h2 with ⟨f1, hf1, he⟩
      exact ⟨f1, List.mem_cons_of_mem f hf1, he⟩

theorem findExports_mem_of (ig : String → Bool) (files : List SourceFile) (f : SourceFile)
    (hf : f ∈ files) (e : ExportInfo) (he : e ∈ scanItems f.name (ig f.name) f.items) :
    e ∈ findExports ig files := by
  induction files with
  | nil => cases hf
  | cons g fs ih =>
    simp only [findExports]
    rcases List.mem_cons.mp hf with rfl | hmem
    · exact List.mem_append.mpr (Or.inl he)
    · exact List.mem_append.mpr (Or.inr (ih hmem))

theorem mem_scanItems (fn : String) (b : Bool) (its : List ModuleItem) (e : ExportInfo)
    (h : e ∈ scanItems fn b its) : ∃ it ∈ its, e ∈ scanItem fn b it := by
  induction its with
  | nil => cases h
  | cons it its ih =>
    simp only [scanItems] at h
    rcases List.mem_append.mp h with h1 | h2
    · exact ⟨it, List.mem_cons_self it its, h1⟩
    · rcases ih h2 with ⟨it1, hit1, he⟩
      exact ⟨it1, List.mem_cons_of_mem it hit1, he⟩

theorem scanItems_mem_of (fn : String) (b : Bool) (its : List ModuleItem) (it : ModuleItem)
    (hit : it ∈ its) (e : ExportInfo) (he : e ∈ scanItem fn b it) :
    e ∈ scanItems fn b its := by
  induction its with
  | nil => cases hit
  | cons jt its ih =>
    simp only [scanItems]
    rcases List.mem_cons.mp hit with rfl | hmem
    · exact List.mem_append.mpr (Or.inl he)
    · exact List.mem_append.mpr (Or.inr (ih hmem))

theorem scanItem_sound (fn : String) (b : Bool) (it : ModuleItem) (e : ExportInfo)
    (h : e ∈ scanItem fn b it) :
    e.source = fn ∧ e.isIgnored = b ∧ ∀ n ∈ e.exports, n ∈ itemNames it := by
  cases it with
  | exportNamed src dcl specs =>
    simp only [scanItem] at h
    by_cases hsk : externalSkip src = true
    · rw [if_pos hsk] at h
      cases h
    · rw [if_neg hsk] at h
      have hnames : ∀ n ∈ e.exports, n ∈ itemNames (ModuleItem.exportNamed src dcl specs) := by
        intro n hn
        simp only [itemNames]
        rw [if_neg hsk]
        rcases List.mem_append.mp h with h1 | h2
        · rcases hdn : (getExportNames dcl).isEmpty with _ | _
          · rw [hdn] at h1
            simp only [Bool.false_eq_true, if_false] at h1
            rcases List.mem_singleton.mp h1 with rfl
            exact List.mem_append.mpr (Or.inl hn)
          · rw [hdn] at h1
            cases h1
        · rcases hsn : (specs.filterMap id).isEmpty with _ | _
          · rw [hsn] at h2
            simp only [Bool.false_eq_true, if_false] at h2
            rcases List.mem_singleton.mp h2 with rfl
            exact List.mem_append.mpr (Or.inr hn)
          · rw [hsn] at h2
            cases h2
      refine ⟨?_, ?_, hnames⟩ <;>
        · rcases List.mem_append.mp h with h1 | h2
          · rcases hdn : (getExportNames dcl).isEmpty with _ | _ <;> rw [hdn] at h1
            · simp only [Bool.false_eq_true, if_false] at h1
              rcases List.mem_singleton.mp h1 with rfl
              rfl
            · cases h1
          · rcases hsn : (specs.filterMap id).isEmpty with _ | _ <;> rw [hsn] at h2
            · simp only [Bool.false_eq_true, if_false] at h2
              rcases List.mem_singleton.mp h2 with rfl
              rfl
            · cases h2
  | exportDefault e0 =>
    simp only [scanItem] at h
    rcases hdn : defaultExportName e0 with _ | n <;> rw [hdn] at h
    · cases h
    · rcases List.mem_singleton.mp h with rfl
      refine ⟨rfl, rfl, ?_⟩
      intro n1 hn1
      simp only [itemNames, hdn, Option.toList_some]
      exact hn1
  | exportAll src => cases h
  | importItem src => cases h
  | otherItem => cases h

theorem scanItem_complete (fn : String) (b : Bool) (it : ModuleItem) (n : String)
    (h : n ∈ itemNames it) :
    ∃ e ∈ scanItem fn b it, n ∈ e.exports ∧ e.source = fn ∧ e.isIgnored = b := by
  cases it with
  | exportNamed src dcl specs =>
    simp only [itemNames] at h
    by_cases hsk : externalSkip src = true
    · rw [if_pos hsk] at h
      cases h
    · rw [if_neg hsk] at h
      simp only [scanItem]
      rw [if_neg hsk]
      rcases List.mem_append.mp h with h1 | h2
      · have hne : getExportNames dcl ≠ [] := List.ne_nil_of_mem h1
        have hie : (getExportNames dcl).isEmpty = false := by
          cases hl : getExportNames dcl with
          | nil => exact absurd hl hne
          | cons x xs => rfl
        refine ⟨⟨fn, getExportNames dcl, b⟩, ?_, h1, rfl, rfl⟩
        rw [hie]
        simp
      · have hne : specs.filterMap id ≠ [] := List.ne_nil_of_mem h2
        have hie : (specs.filterMap id).isEmpty = false := by
          cases hl : specs.filterMap id with
          | nil => exact absurd hl hne
          | cons x xs => rfl
        refine ⟨⟨fn, specs.filterMap id, b⟩, ?_, h2, rfl, rfl⟩
        rw [hie]
        simp
  | exportDefault e0 =>
    simp only [itemNames] at h
    rcases hdn : defaultExportName e0 with _ | m <;> rw [hdn] at h
    · cases h
    · rcases List.mem_singleton.mp (by simpa using h) with rfl
      refine ⟨⟨fn, [n], b⟩, ?_, List.mem_singleton.mpr rfl, rfl, rfl⟩
      simp [scanItem, hdn]
  | exportAll src => cases h
  | importItem src => cases h
  | otherItem => cases h

theorem noInternal_itemNames (n : String) (files : List SourceFile)
    (h : noInternalOccurrence n files = true) :
    ∀ f ∈ files, ∀ it ∈ f.items, n ∉ itemNames it := by
  intro f hf it hit
  unfold noInternalOccurrence at h
  have hfile := (List.all_eq_true.mp h) f hf
  have hitem := (List.all_eq_true.mp hfile) it hit
  cases it with
  | exportNamed src dcl specs =>
    simp only [itemNames]
    by_cases hsk : externalSkip src = true
    · rw [if_pos hsk]
      exact List.not_mem_nil n
    · rw [if_neg hsk]
      simp only [hsk] at hitem
      simp only [Bool.false_or, Bool.and_eq_true, decide_eq_true_eq] at hitem
      intro hmem
      rcases List.mem_append.mp hmem with h1 | h2
      · exact hitem.1 h1
      · exact hitem.2 h2
  | exportDefault e0 =>
    simp only [itemNames]
    simp only [decide_eq_true_eq] at hitem
    intro hmem
    rcases hdn : defaultExportName e0 with _ | m <;> rw [hdn] at hmem
    · cases hmem
    · rcases List.mem_singleton.mp (by simpa using hmem) with rfl
      exact hitem hdn
  | exportAll src => simp [itemNames]
  | importItem src => simp [itemNames]
  | otherItem => simp [itemNames]

theorem routeSpec_match_eq (c : Ctx) (l n : String) :
    routeSpec c (ImportSpec.named l n)
      = (match c.exports.find? (fun e => decide (n ∈ e.exports)) with
        | some e =>
          if e.isIgnored then SpecRoute.toRemainder none
          else SpecRoute.toGroup (mkImportPath c.packageName c.includeExtension e.source) l n
        | none =>
          SpecRoute.toRemainder
            (some (unresolvedWarning (hasExternalishSource c.exports) n c.filePath))) := rfl

theorem routeSpec_unresolved (c : Ctx) (l n : String)
    (hfind : c.exports.find? (fun e => decide (n ∈ e.exports)) = none) :
    routeSpec c (ImportSpec.named l n)
      = .toRemainder (some (unresolvedWarning (hasExternalishSource c.exports) n c.filePath)) := by
  rw [routeSpec_match_eq, hfind]

theorem routeSpec_found (c : Ctx) (l n : String) (e0 : ExportInfo)
    (hfind : c.exports.find? (fun e => decide (n ∈ e.exports)) = some e0)
    (hig : e0.isIgnored = false) :
    routeSpec c (ImportSpec.named l n)
      = .toGroup (mkImportPath c.packageName c.includeExtension e0.source) l n := by
  rw [routeSpec_match_eq, hfind]
  show (if e0.isIgnored = true then SpecRoute.toRemainder none
      else SpecRoute.toGroup (mkImportPath c.packageName c.includeExtension e0.source) l n)
    = SpecRoute.toGroup (mkImportPath c.packageName c.includeExtension e0.source) l n
  rw [if_neg (by rw [hig]; exact Bool.false_ne_true)]

theorem specTarget_none_of_remainder (c : Ctx) (s : ImportSpec) (w : Option String)
    (h : routeSpec c s = .toRemainder w) : specTarget c s = none := by
  simp [specTarget, specTargetBinding, h]

theorem filter_beq_length_one (ks : List String) (x : String) (hnd : ks.Nodup) (hx : x ∈ ks) :
    (ks.filter (fun q => q == x)).length = 1 := by
  induction ks with
  | nil => cases hx
  | cons k ks ih =>
    have hk : k ∉ ks := (List.nodup_cons.mp hnd).1
    have hnd2 : ks.Nodup := (List.nodup_cons.mp hnd).2
    rcases List.mem_cons.mp hx with rfl | hmem
    · have hfil : ks.filter (fun q => q == x) = [] := by
        apply List.filter_eq_nil_iff.mpr
        intro a ha hc
        exact hk ((by simpa using hc : a = x) ▸ ha)
      simp [List.filter_cons, hfil]
    · have hne : (k == x) = false := by
        have hkx : k ≠ x := fun h => hk (h ▸ hmem)
        simpa using hkx
      simp [List.filter_cons, hne, ih hnd2 hmem]

/-- C3: when the same exported name is declared by more than one module of
the package, the best-source selection of `updateImports` prefers a module
whose path does not match the auxiliary classification (stories, tests,
specs) over one that does: with more than one candidate file and at least
one non-auxiliary candidate, `bestSourceFile` returns a non-auxiliary
member of the candidate list.  In particular a name exported by both
`Button.tsx` and `Button.stories.tsx` resolves to `Button.tsx`. -/
theorem auxiliary_paths_not_preferred (files : List String) (hlen : 1 < files.length)
    (f : String) (hf : f ∈ files) (hmain : isAuxiliaryFile f = false) :
    ∃ g ∈ files, isAuxiliaryFile g = false ∧ bestSourceFile files = some g := by
  rcases hl : files.filter (fun x => !(isAuxiliaryFile x)) with _ | ⟨g, gs⟩
  · exfalso
    have hmem : f ∈ files.filter (fun x => !(isAuxiliaryFile x)) :=
      List.mem_filter.mpr ⟨hf, by rw [hmain]; rfl⟩
    rw [hl] at hmem
    cases hmem
  · have hg : g ∈ files.filter (fun x => !(isAuxiliaryFile x)) := by
      rw [hl]
      exact List.mem_cons_self g gs
    have hgf : g ∈ files := (List.mem_filter.mp hg).1
    have hgp : (!(isAuxiliaryFile g)) = true := (List.mem_filter.mp hg).2
    have hgaux : isAuxiliaryFile g = false := by
      revert hgp
      cases isAuxiliaryFile g
      · intro _
        rfl
      · intro hc
        cases hc
    refine ⟨g, hgf, hgaux, ?_⟩
    unfold bestSourceFile
    rw [if_pos hlen, hl]
    rw [if_pos (by simp : 0 < (g :: gs).length)]
    rfl

theorem auxiliary_paths_not_preferred_witness :
    bestSourceFile ["Button.stories.tsx", "Button.tsx"] = some "Button.tsx" ∧
      ∃ g ∈ ["Button.stories.tsx", "Button.tsx"],
        isAuxiliaryFile g = false ∧
          bestSourceFile ["Button.stories.tsx", "Button.tsx"] = some g :=
  ⟨by decide,
    auxiliary_paths_not_preferred ["Button.stories.tsx", "Button.tsx"] (by decide)
      "Button.tsx" (by decide) (by decide)⟩

/-- C7 (counterexample): the claim says a default-export declaration
contributes the name `default` unless the exported expression is a named
function or class, whose name is then additionally recorded.  The scanner
records nothing for an anonymous default export (no `default` binding),
and nothing at all for a named default-exported class. -/
theorem default_export_name_counterexample :
    findExports (fun _ => false)
        [⟨"src/answer.ts", [ModuleItem.exportDefault DefaultExpr.other]⟩] = [] ∧
      findExports (fun _ => false)
        [⟨"src/Foo.ts", [ModuleItem.exportDefault (DefaultExpr.namedClass "Foo")]⟩] = [] :=
  ⟨rfl, rfl⟩

/-- C7 (amended): a default-export declaration contributes exactly the
identifier's name when the exported expression is an identifier or a named
function declaration, and contributes nothing otherwise: anonymous
expressions and classes (named or not) leave no record, and the name
`default` itself is never recorded by a default-export declaration. -/
theorem default_export_contribution :
    ∀ (fn : String) (b : Bool),
      (∀ n, scanItem fn b (.exportDefault (.ident n)) = [⟨fn, [n], b⟩]) ∧
        (∀ n, scanItem fn b (.exportDefault (.namedFun n)) = [⟨fn, [n], b⟩]) ∧
        scanItem fn b (.exportDefault .anonFun) = [] ∧
        (∀ n, scanItem fn b (.exportDefault (.namedClass n)) = []) ∧
        scanItem fn b (.exportDefault .other) = [] := by
  intro fn b
  exact ⟨fun n => rfl, fun n => rfl, rfl, fun n => rfl, rfl⟩

theorem default_export_contribution_witness :
    scanItem "src/a.ts" false (.exportDefault (.namedFun "foo"))
        = [⟨"src/a.ts", ["foo"], false⟩] ∧
      scanItem "src/a.ts" false (.exportDefault .anonFun) = [] :=
  ⟨(default_export_contribution "src/a.ts" false).2.1 "foo",
    (default_export_contribution "src/a.ts" false).2.2.1⟩

/-- C9: in one consumer file, only the first import declaration whose
specifier is exactly the package name is rewritten; every declaration
before it (non-qualifying) and after it — including later declarations
with the very same specifier, which the `processedImports` set makes the
traversal skip — is left textually unchanged by the run. -/
theorem only_first_package_import_rewritten (c : Ctx) (pre : List ImportDecl)
    (d : ImportDecl) (post : List ImportDecl)
    (hpre : ∀ x ∈ pre, x.source ≠ c.packageName) (hd : d.source = c.packageName) :
    (updateImports c (pre ++ d :: post)).decls = pre ++ (rewriteDecl c d).decls ++ post := by
  unfold updateImports
  rw [processDecls_split c pre d post hpre hd]

theorem only_first_package_import_rewritten_witness :
    (updateImports ⟨[⟨"src/utils.ts", ["add"], false⟩], true, "@p", "src/app.ts"⟩
        ([] ++ (⟨"@p", [ImportSpec.named "add" "add"]⟩ : ImportDecl) ::
          [⟨"@p", [ImportSpec.named "subtract" "subtract"]⟩])).decls =
      [] ++ (rewriteDecl ⟨[⟨"src/utils.ts", ["add"], false⟩], true, "@p", "src/app.ts"⟩
          ⟨"@p", [ImportSpec.named "add" "add"]⟩).decls ++
        [⟨"@p", [ImportSpec.named "subtract" "subtract"]⟩] :=
  only_first_package_import_rewritten
    ⟨[⟨"src/utils.ts", ["add"], false⟩], true, "@p", "src/app.ts"⟩ []
    ⟨"@p", [ImportSpec.named "add" "add"]⟩
    [⟨"@p", [ImportSpec.named "subtract" "subtract"]⟩]
    (by intro x hx; cases hx) rfl

/-- C10: in a rewritten qualifying import declaration, a specifier that is
not a named-import specifier (default or namespace import) is never routed
to a direct-file target group: it is kept, unchanged, in the declaration
that retains the original package name as specifier, and appears in no
declaration keyed by any other specifier. -/
theorem non_named_specifiers_stay_on_package (c : Ctx) (d : ImportDecl)
    (hd : d.source = c.packageName) (s : ImportSpec) (hs : s ∈ d.specifiers)
    (hnn : isNamedSpec s = false) :
    (∃ dd ∈ (rewriteDecl c d).decls, dd.source = c.packageName ∧ s ∈ dd.specifiers) ∧
      (∀ dd ∈ (rewriteDecl c d).decls, dd.source ≠ c.packageName → s ∉ dd.specifiers) := by
  have hnone : specTarget c s = none := by
    cases s with
    | named l i => exact Bool.noConfusion hnn
    | defaultSpec l => rfl
    | namespaceSpec l => rfl
  exact mem_remainder_decl c d hd s hs hnone

theorem non_named_specifiers_stay_on_package_witness :
    (∃ dd ∈ (rewriteDecl ⟨[⟨"src/utils.ts", ["add"], false⟩], true, "@p", "src/app.ts"⟩
        ⟨"@p", [ImportSpec.defaultSpec "D", ImportSpec.named "add" "add"]⟩).decls,
      dd.source = "@p" ∧ ImportSpec.defaultSpec "D" ∈ dd.specifiers) ∧
      (∀ dd ∈ (rewriteDecl ⟨[⟨"src/utils.ts", ["add"], false⟩], true, "@p", "src/app.ts"⟩
          ⟨"@p", [ImportSpec.defaultSpec "D", ImportSpec.named "add" "add"]⟩).decls,
        dd.source ≠ "@p" → ImportSpec.defaultSpec "D" ∉ dd.specifiers) :=
  non_named_specifiers_stay_on_package
    ⟨[⟨"src/utils.ts", ["add"], false⟩], true, "@p", "src/app.ts"⟩
    ⟨"@p", [ImportSpec.defaultSpec "D", ImportSpec.named "add" "add"]⟩ rfl
    (ImportSpec.defaultSpec "D") (by decide) rfl

/-- C8: an imported name with no catalog entry at all does not fail the
run: the binding is kept in the declaration that retains the original
package specifier (and in no direct-file group), and a warning naming the
consumer file and the symbol is pushed — one of the two templates of the
unresolved branch, both of which spell out the file path and the name. -/
theorem unresolved_name_remainder_and_warning (c : Ctx) (d : ImportDecl)
    (hd : d.source = c.packageName) (l n : String)
    (hs : ImportSpec.named l n ∈ d.specifiers)
    (hn : ∀ e ∈ c.exports, n ∉ e.exports) :
    (∃ dd ∈ (rewriteDecl c d).decls, dd.source = c.packageName ∧
        ImportSpec.named l n ∈ dd.specifiers) ∧
      (∀ dd ∈ (rewriteDecl c d).decls, dd.source ≠ c.packageName →
        ImportSpec.named l n ∉ dd.specifiers) ∧
      (∃ w ∈ (rewriteDecl c d).warnings,
        w = "Could not find export " ++ n ++ " in " ++ c.filePath ∨
          w = "Skipping re-export from external package: " ++ n ++ " in \"" ++
            c.filePath ++ "\"") := by
  have hfind : c.exports.find? (fun e => decide (n ∈ e.exports)) = none :=
    List.find?_eq_none.mpr (fun e he => by simpa using hn e he)
  have hroute := routeSpec_unresolved c l n hfind
  have hnone : specTarget c (ImportSpec.named l n) = none :=
    specTarget_none_of_remainder c _ _ hroute
  have hmain := mem_remainder_decl c d hd _ hs hnone
  refine ⟨hmain.1, hmain.2, ?_⟩
  have hwps : (rewriteDecl c d).warnings = warningsOf c d.specifiers := by
    by_cases hdir : anyDirect c d.specifiers = true
    · rw [rewriteDecl_pos c d hdir]
    · rw [rewriteDecl_neg c d (Bool.eq_false_iff.mpr hdir)]
  have hw : unresolvedWarning (hasExternalishSource c.exports) n c.filePath
      ∈ (rewriteDecl c d).warnings := by
    rw [hwps]
    unfold warningsOf
    apply List.mem_filterMap.mpr
    exact ⟨ImportSpec.named l n, hs, by simp [specWarning, hroute]⟩
  refine ⟨_, hw, ?_⟩
  unfold unresolvedWarning
  by_cases hre : hasExternalishSource c.exports = true
  · rw [if_pos hre]
    right
    rfl
  · rw [if_neg hre]
    left
    rfl

theorem unresolved_name_remainder_and_warning_witness :
    ∃ w ∈ (rewriteDecl ⟨[⟨"src/utils.ts", ["add"], false⟩], true, "@p", "src/app.ts"⟩
        ⟨"@p", [ImportSpec.named "mystery" "mystery"]⟩).warnings,
      w = "Could not find export " ++ "mystery" ++ " in " ++ "src/app.ts" ∨
        w = "Skipping re-export from external package: " ++ "mystery" ++ " in \"" ++
          "src/app.ts" ++ "\"" :=
  (unresolved_name_remainder_and_warning
    ⟨[⟨"src/utils.ts", ["add"], false⟩], true, "@p", "src/app.ts"⟩
    ⟨"@p", [ImportSpec.named "mystery" "mystery"]⟩ rfl "mystery" "mystery"
    (by decide) (by decide)).2.2

/-- C5: the modified verdict of a consumer file is true iff the one
processed qualifying declaration (the first whose specifier is exactly
the package name) has at least one binding routed to a resolved-target
group; when it is false — every qualifying binding landed in the
remainder — the file's declarations are returned unchanged, so no text
is rewritten. -/
theorem modified_iff_some_binding_routed (c : Ctx) (decls : List ImportDecl) :
    ((updateImports c decls).modified = true ↔
      ∃ d, decls.find? (fun x => x.source == c.packageName) = some d ∧
        anyDirect c d.specifiers = true) ∧
      ((updateImports c decls).modified = false → (updateImports c decls).decls = decls) := by
  unfold updateImports
  rcases exists_first_pkg_split c.packageName decls with hno | ⟨pre, d, post, hds, hd, hpre⟩
  · rw [processDecls_noPkg c decls hno []]
    constructor
    · constructor
      · intro h
        cases h
      · rintro ⟨d, hfind, _⟩
        have hnone : decls.find? (fun x => x.source == c.packageName) = none :=
          List.find?_eq_none.mpr (fun x hx => by simp [hno x hx])
        rw [hnone] at hfind
        cases hfind
    · intro _
      rfl
  · subst hds
    rw [processDecls_split c pre d post hpre hd]
    have hfind := find_pkg_of_split c.packageName pre d post hpre hd
    constructor
    · constructor
      · intro h
        refine ⟨d, hfind, ?_⟩
        rw [← rewriteDecl_changed c d]
        exact h
      · rintro ⟨d1, hfind1, hany⟩
        rw [hfind] at hfind1
        injection hfind1 with hEq
        subst hEq
        rw [rewriteDecl_changed c d]
        exact hany
    · intro hmod
      have hany : anyDirect c d.specifiers = false := by
        rw [← rewriteDecl_changed c d]
        exact hmod
      show pre ++ (rewriteDecl c d).decls ++ post = pre ++ d :: post
      rw [rewriteDecl_neg c d hany]
      simp

theorem modified_iff_some_binding_routed_witness :
    (updateImports ⟨[], true, "@p", "src/app.ts"⟩
        [⟨"@p", [ImportSpec.named "x" "x"]⟩]).modified = false ∧
      (updateImports ⟨[], true, "@p", "src/app.ts"⟩
          [⟨"@p", [ImportSpec.named "x" "x"]⟩]).decls =
        [⟨"@p", [ImportSpec.named "x" "x"]⟩] :=
  ⟨by decide,
    (modified_iff_some_binding_routed ⟨[], true, "@p", "src/app.ts"⟩
      [⟨"@p", [ImportSpec.named "x" "x"]⟩]).2 (by decide)⟩

/-- C4: for a rewritten qualifying declaration, all bindings that resolve
to the same target specifier are merged into a single emitted import
declaration for that specifier (exactly one declaration per resolved
target, never one per binding), and the emitted declarations consist of
the remainder declaration first (when non-empty) followed by one
declaration per resolved target in first-encounter order of the targets
over the original specifier scan. -/
theorem rewrite_groups_merged_and_ordered (c : Ctx) (d : ImportDecl)
    (h : anyDirect c d.specifiers = true) :
    (rewriteDecl c d).decls =
      (if (remainingOf c d.specifiers).isEmpty then []
        else [⟨c.packageName, remainingOf c d.specifiers⟩]) ++
        (occOrder ((groupPairs c d.specifiers).map Prod.fst)).map
          (fun p => ⟨p, ((groupPairs c d.specifiers).filter (fun pb => pb.1 == p)).map
            (fun pb => ImportSpec.named pb.2.1 pb.2.2)⟩) ∧
      ∀ p ∈ (groupPairs c d.specifiers).map Prod.fst,
        ((rewriteDecl c d).decls.filter (fun dd => dd.source == p)).length = 1 := by
  have hdec : (rewriteDecl c d).decls =
      (if (remainingOf c d.specifiers).isEmpty then []
        else [⟨c.packageName, remainingOf c d.specifiers⟩]) ++
        (occOrder ((groupPairs c d.specifiers).map Prod.fst)).map
          (fun p => ⟨p, ((groupPairs c d.specifiers).filter (fun pb => pb.1 == p)).map
            (fun pb => ImportSpec.named pb.2.1 pb.2.2)⟩) := by
    rw [rewriteDecl_pos c d h]
  refine ⟨hdec, ?_⟩
  intro p hp
  rcases List.mem_map.mp hp with ⟨pb, hpbmem, hfst⟩
  have hroute := mem_groupPairs_route c d.specifiers pb.1 pb.2.1 pb.2.2 hpbmem
  rcases routeSpec_toGroup_named c _ _ _ _ hroute.2 with ⟨_, src, hsrc⟩
  have hne : p ≠ c.packageName := by
    rw [← hfst, hsrc]
    exact mkImportPath_ne c.packageName c.includeExtension src
  rw [hdec, List.filter_append]
  have hrem : ((if (remainingOf c d.specifiers).isEmpty then []
      else [(⟨c.packageName, remainingOf c d.specifiers⟩ : ImportDecl)]).filter
        (fun dd => dd.source == p)) = [] := by
    by_cases hie : (remainingOf c d.specifiers).isEmpty = true
    · rw [if_pos hie]
      rfl
    · rw [if_neg hie]
      have hb : ((⟨c.packageName, remainingOf c d.specifiers⟩ : ImportDecl).source == p)
          = false := by
        simpa using Ne.symm hne
      simp [List.filter_cons, hb]
  rw [hrem, List.nil_append]
  rw [List.filter_map, List.length_map]
  have hcomp : ((fun dd : ImportDecl => dd.source == p) ∘
      (fun q => (⟨q, ((groupPairs c d.specifiers).filter (fun pb => pb.1 == q)).map
        (fun pb => ImportSpec.named pb.2.1 pb.2.2)⟩ : ImportDecl))) = fun q => q == p := rfl
  rw [hcomp]
  apply filter_beq_length_one
  · exact occOrder_nodup _
  · exact (mem_occOrder _ _).mpr hp

theorem rewrite_groups_merged_and_ordered_witness :
    ((rewriteDecl ⟨[⟨"src/utils.ts", ["add", "subtract"], false⟩,
        ⟨"src/constants.ts", ["PI"], false⟩], true, "@p", "src/app.ts"⟩
      ⟨"@p", [ImportSpec.named "add" "add", ImportSpec.named "PI" "PI",
        ImportSpec.named "subtract" "subtract"]⟩).decls.filter
          (fun dd => dd.source == "@p/src/utils.ts")).length = 1 :=
  (rewrite_groups_merged_and_ordered
    ⟨[⟨"src/utils.ts", ["add", "subtract"], false⟩,
      ⟨"src/constants.ts", ["PI"], false⟩], true, "@p", "src/app.ts"⟩
    ⟨"@p", [ImportSpec.named "add" "add", ImportSpec.named "PI" "PI",
      ImportSpec.named "subtract" "subtract"]⟩ (by decide)).2
    "@p/src/utils.ts" (by decide)

/-- C6 (counterexample): the claim says a second run of the engine changes
no file.  A consumer file with two import declarations whose specifier is
exactly the package name refutes it: the first pass rewrites only the
first declaration (the `processedImports` set skips the second), so the
second pass finds the leftover declaration, rewrites it, and reports the
file modified again — with a different declaration list than pass one. -/
theorem second_pass_rewrites_duplicate_import_counterexample :
    (updateImports ⟨[⟨"src/utils.ts", ["add"], false⟩, ⟨"src/constants.ts", ["PI"], false⟩],
        true, "@test/source-lib", "src/calculator.ts"⟩
      (updateImports ⟨[⟨"src/utils.ts", ["add"], false⟩, ⟨"src/constants.ts", ["PI"], false⟩],
          true, "@test/source-lib", "src/calculator.ts"⟩
        [⟨"@test/source-lib", [ImportSpec.named "add" "add"]⟩,
          ⟨"@test/source-lib", [ImportSpec.named "PI" "PI"]⟩]).decls).modified = true ∧
      (updateImports ⟨[⟨"src/utils.ts", ["add"], false⟩, ⟨"src/constants.ts", ["PI"], false⟩],
          true, "@test/source-lib", "src/calculator.ts"⟩
        (updateImports ⟨[⟨"src/utils.ts", ["add"], false⟩, ⟨"src/constants.ts", ["PI"], false⟩],
            true, "@test/source-lib", "src/calculator.ts"⟩
          [⟨"@test/source-lib", [ImportSpec.named "add" "add"]⟩,
            ⟨"@test/source-lib", [ImportSpec.named "PI" "PI"]⟩]).decls).decls ≠
        (updateImports ⟨[⟨"src/utils.ts", ["add"], false⟩, ⟨"src/constants.ts", ["PI"], false⟩],
            true, "@test/source-lib", "src/calculator.ts"⟩
          [⟨"@test/source-lib", [ImportSpec.named "add" "add"]⟩,
            ⟨"@test/source-lib", [ImportSpec.named "PI" "PI"]⟩]).decls := by
  decide

/-- C6 (amended): on a consumer file with at most one import declaration
whose specifier is exactly the package name, the rewrite is idempotent:
running `updateImports` again on the first run's output plans no change
(the modified verdict is false) and leaves the declarations identical.
With duplicate exact-specifier declarations each run rewrites only the
first remaining one, so idempotence holds only under this restriction. -/
theorem second_pass_noop_for_single_package_import (c : Ctx) (decls : List ImportDecl)
    (h : (decls.filter (fun x => x.source == c.packageName)).length ≤ 1) :
    (updateImports c (updateImports c decls).decls).modified = false ∧
      (updateImports c (updateImports c decls).decls).decls = (updateImports c decls).decls := by
  rcases exists_first_pkg_split c.packageName decls with hno | ⟨pre, d, post, hds, hd, hpre⟩
  · have hres : updateImports c decls = ⟨decls, false, []⟩ := by
      unfold updateImports
      exact processDecls_noPkg c decls hno []
    rw [hres]
    have hres2 : updateImports c ((⟨decls, false, []⟩ : FileResult).decls)
        = ⟨decls, false, []⟩ := hres
    rw [hres2]
    exact ⟨rfl, rfl⟩
  · subst hds
    have hpost : ∀ x ∈ post, x.source ≠ c.packageName := by
      intro x hx hxeq
      have hfpre : pre.filter (fun y => y.source == c.packageName) = [] := by
        apply List.filter_eq_nil_iff.mpr
        intro a ha hc
        exact hpre a ha (by simpa using hc)
      have hfd : (d.source == c.packageName) = true := by simp [hd]
      rw [List.filter_append, hfpre, List.nil_append, List.filter_cons, hfd] at h
      rw [if_pos rfl, List.length_cons] at h
      have hlen0 : (post.filter (fun y => y.source == c.packageName)).length = 0 := by omega
      have hfil : post.filter (fun y => y.source == c.packageName) = [] :=
        List.length_eq_zero.mp hlen0
      have hxmem : x ∈ post.filter (fun y => y.source == c.packageName) :=
        List.mem_filter.mpr ⟨hx, by simp [hxeq]⟩
      rw [hfil] at hxmem
      cases hxmem
    have hsplit1 : updateImports c (pre ++ d :: post)
        = ⟨pre ++ (rewriteDecl c d).decls ++ post,
          (rewriteDecl c d).changed, (rewriteDecl c d).warnings⟩ := by
      unfold updateImports
      exact processDecls_split c pre d post hpre hd
    have hstep : (updateImports c (pre ++ d :: post)).decls
        = pre ++ (rewriteDecl c d).decls ++ post := by
      rw [hsplit1]
    rw [hstep]
    by_cases hdir : anyDirect c d.specifiers = true
    · have hpos := rewriteDecl_pos c d hdir
      by_cases hie : (remainingOf c d.specifiers).isEmpty = true
      · have hdecls1 : (rewriteDecl c d).decls
            = (occOrder ((groupPairs c d.specifiers).map Prod.fst)).map
              (fun p => (⟨p, ((groupPairs c d.specifiers).filter (fun pb => pb.1 == p)).map
                (fun pb => ImportSpec.named pb.2.1 pb.2.2)⟩ : ImportDecl)) := by
          rw [hpos]
          simp [hie]
        have hall : ∀ x ∈ pre ++ (rewriteDecl c d).decls ++ post,
            x.source ≠ c.packageName := by
          intro x hx
          rcases List.mem_append.mp hx with hx1 | hx2
          · rcases List.mem_append.mp hx1 with hx3 | hx4
            · exact hpre x hx3
            · rw [hdecls1] at hx4
              rcases List.mem_map.mp hx4 with ⟨p, hpmem, hpeq⟩
              have hp2 : p ∈ (groupPairs c d.specifiers).map Prod.fst :=
                (mem_occOrder _ _).mp hpmem
              rcases List.mem_map.mp hp2 with ⟨pb, hpbmem, hfst⟩
              have hroute := mem_groupPairs_route c d.specifiers pb.1 pb.2.1 pb.2.2 hpbmem
              rcases routeSpec_toGroup_named c _ _ _ _ hroute.2 with ⟨_, src, hsrc⟩
              rw [← hpeq]
              show p ≠ c.packageName
              rw [← hfst, hsrc]
              exact mkImportPath_ne c.packageName c.includeExtension src
          · exact hpost x hx2
        have hres2 : updateImports c (pre ++ (rewriteDecl c d).decls ++ post)
            = ⟨pre ++ (rewriteDecl c d).decls ++ post, false, []⟩ := by
          unfold updateImports
          exact processDecls_noPkg c _ hall []
        rw [hres2]
        exact ⟨rfl, rfl⟩
      · have hdecls1 : (rewriteDecl c d).decls
            = (⟨c.packageName, remainingOf c d.specifiers⟩ : ImportDecl) ::
              (occOrder ((groupPairs c d.specifiers).map Prod.fst)).map
                (fun p => (⟨p, ((groupPairs c d.specifiers).filter (fun pb => pb.1 == p)).map
                  (fun pb => ImportSpec.named pb.2.1 pb.2.2)⟩ : ImportDecl)) := by
          rw [hpos]
          simp [hie]
        have hlist : pre ++ (rewriteDecl c d).decls ++ post
            = pre ++ (⟨c.packageName, remainingOf c d.specifiers⟩ : ImportDecl) ::
              ((occOrder ((groupPairs c d.specifiers).map Prod.fst)).map
                (fun p => (⟨p, ((groupPairs c d.specifiers).filter (fun pb => pb.1 == p)).map
                  (fun pb => ImportSpec.named pb.2.1 pb.2.2)⟩ : ImportDecl)) ++ post) := by
          rw [hdecls1]
          simp
        have hany2 : anyDirect c (remainingOf c d.specifiers) = false := by
          unfold anyDirect
          apply List.any_eq_false.mpr
          intro s hsm
          intro hcontra
          unfold remainingOf at hsm
          have h2 := (List.mem_filter.mp hsm).2
          cases hts : specTarget c s with
          | some v =>
            rw [hts] at h2
            exact Bool.noConfusion h2
          | none =>
            rw [hts] at hcontra
            exact Bool.noConfusion hcontra
        have hrw2 : rewriteDecl c (⟨c.packageName, remainingOf c d.specifiers⟩ : ImportDecl)
            = ⟨[⟨c.packageName, remainingOf c d.specifiers⟩], false,
              warningsOf c (remainingOf c d.specifiers)⟩ :=
          rewriteDecl_neg c _ hany2
        rw [hlist]
        have hsplit2 : updateImports c
            (pre ++ (⟨c.packageName, remainingOf c d.specifiers⟩ : ImportDecl) ::
              ((occOrder ((groupPairs c d.specifiers).map Prod.fst)).map
                (fun p => (⟨p, ((groupPairs c d.specifiers).filter (fun pb => pb.1 == p)).map
                  (fun pb => ImportSpec.named pb.2.1 pb.2.2)⟩ : ImportDecl)) ++ post))
            = ⟨pre ++ (rewriteDecl c (⟨c.packageName, remainingOf c d.specifiers⟩ :
                  ImportDecl)).decls ++
                ((occOrder ((groupPairs c d.specifiers).map Prod.fst)).map
                  (fun p => (⟨p, ((groupPairs c d.specifiers).filter (fun pb => pb.1 == p)).map
                    (fun pb => ImportSpec.named pb.2.1 pb.2.2)⟩ : ImportDecl)) ++ post),
              (rewriteDecl c (⟨c.packageName, remainingOf c d.specifiers⟩ :
                ImportDecl)).changed,
              (rewriteDecl c (⟨c.packageName, remainingOf c d.specifiers⟩ :
                ImportDecl)).warnings⟩ := by
          unfold updateImports
          exact processDecls_split c pre _ _ hpre rfl
        rw [hsplit2, hrw2]
        constructor
        · rfl
        · simp
    · have hneg := rewriteDecl_neg c d (Bool.eq_false_iff.mpr hdir)
      have hlist2 : pre ++ (rewriteDecl c d).decls ++ post = pre ++ d :: post := by
        rw [hneg]
        simp
      rw [hlist2, hsplit1, hneg]
      constructor
      · rfl
      · simp

theorem second_pass_noop_for_single_package_import_witness :
    (updateImports ⟨[⟨"src/utils.ts", ["add"], false⟩], true, "@p", "src/app.ts"⟩
        (updateImports ⟨[⟨"src/utils.ts", ["add"], false⟩], true, "@p", "src/app.ts"⟩
          [⟨"@p", [ImportSpec.named "add" "add", ImportSpec.defaultSpec "D"]⟩]).decls).modified
        = false ∧
      (updateImports ⟨[⟨"src/utils.ts", ["add"], false⟩], true, "@p", "src/app.ts"⟩
          (updateImports ⟨[⟨"src/utils.ts", ["add"], false⟩], true, "@p", "src/app.ts"⟩
            [⟨"@p", [ImportSpec.named "add" "add", ImportSpec.defaultSpec "D"]⟩]).decls).decls =
        (updateImports ⟨[⟨"src/utils.ts", ["add"], false⟩], true, "@p", "src/app.ts"⟩
          [⟨"@p", [ImportSpec.named "add" "add", ImportSpec.defaultSpec "D"]⟩]).decls :=
  second_pass_noop_for_single_package_import
    ⟨[⟨"src/utils.ts", ["add"], false⟩], true, "@p", "src/app.ts"⟩
    [⟨"@p", [ImportSpec.named "add" "add", ImportSpec.defaultSpec "D"]⟩] (by decide)

/-- C1 (counterexample): the claim says the binding of a name that is a
re-export of an external specifier is routed to a group keyed by that
external specifier.  In the code the scanner skips external re-exports
entirely, so the name has no catalog entry and its binding is routed to
the remainder group keyed by the original package specifier: for a
package re-exporting `something` from `lodash`, the consumer's
`something` binding lands in the declaration keyed `@pkg`, and no
declaration keyed `lodash` is emitted. -/
theorem external_reexport_group_key_counterexample :
    updateImports ⟨findExports (fun _ => false)
        [⟨"src/vendor.ts", [ModuleItem.exportNamed (some "lodash") none [some "something"]]⟩,
          ⟨"src/utils.ts",
            [ModuleItem.exportNamed none (some (Declaration.varDecl [some "add"])) []]⟩],
      true, "@pkg", "src/app.ts"⟩
      [⟨"@pkg", [ImportSpec.named "something" "something", ImportSpec.named "add" "add"]⟩] =
    ⟨[⟨"@pkg", [ImportSpec.named "something" "something"]⟩,
        ⟨"@pkg/src/utils.ts", [ImportSpec.named "add" "add"]⟩],
      true,
      ["Skipping re-export from external package: something in \"src/app.ts\""]⟩ := by
  decide

/-- C1 (amended): a name whose only occurrences in the scanned package are
re-exports from external (non-relative) specifiers receives no catalog
entry at all, so a consumer import of it is never rewritten: the binding
stays in the remainder declaration keyed by the original package
specifier, and appears in no emitted declaration keyed by any other
specifier — in particular neither an internal package subpath nor a group
keyed by the external specifier. -/
theorem external_reexport_stays_in_remainder (ig : String → Bool) (files : List SourceFile)
    (n ename : String) (dcl : Option Declaration) (specs : List (Option String))
    (f0 : SourceFile) (hf0 : f0 ∈ files)
    (hitem : ModuleItem.exportNamed (some ename) dcl specs ∈ f0.items)
    (hext : strStarts ename "." = false)
    (hspec : some n ∈ specs)
    (honly : noInternalOccurrence n files = true)
    (ie : Bool) (pkg fp l : String) (d : ImportDecl) (hd : d.source = pkg)
    (hs : ImportSpec.named l n ∈ d.specifiers) :
    (∀ e ∈ findExports ig files, n ∉ e.exports) ∧
      (∃ dd ∈ (rewriteDecl ⟨findExports ig files, ie, pkg, fp⟩ d).decls,
        dd.source = pkg ∧ ImportSpec.named l n ∈ dd.specifiers) ∧
      (∀ dd ∈ (rewriteDecl ⟨findExports ig files, ie, pkg, fp⟩ d).decls,
        dd.source ≠ pkg → ImportSpec.named l n ∉ dd.specifiers) := by
  have hcat : ∀ e ∈ findExports ig files, n ∉ e.exports := by
    intro e he hn
    rcases mem_findExports ig files e he with ⟨f, hf, hei⟩
    rcases mem_scanItems _ _ _ _ hei with ⟨it, hit, hsc⟩
    have hsound := scanItem_sound _ _ _ _ hsc
    exact noInternal_itemNames n files honly f hf it hit (hsound.2.2 n hn)
  refine ⟨hcat, ?_⟩
  have hfind : (findExports ig files).find? (fun e => decide (n ∈ e.exports)) = none :=
    List.find?_eq_none.mpr (fun e he => by simpa using hcat e he)
  have hroute := routeSpec_unresolved ⟨findExports ig files, ie, pkg, fp⟩ l n hfind
  have hnone : specTarget ⟨findExports ig files, ie, pkg, fp⟩ (ImportSpec.named l n) = none :=
    specTarget_none_of_remainder _ _ _ hroute
  exact mem_remainder_decl ⟨findExports ig files, ie, pkg, fp⟩ d hd _ hs hnone

theorem external_reexport_stays_in_remainder_witness :
    (∀ e ∈ findExports (fun _ => false)
        [⟨"src/vendor.ts", [ModuleItem.exportNamed (some "lodash") none [some "something"]]⟩,
          ⟨"src/utils.ts",
            [ModuleItem.exportNamed none (some (Declaration.varDecl [some "add"])) []]⟩],
      "something" ∉ e.exports) ∧
      (∃ dd ∈ (rewriteDecl ⟨findExports (fun _ => false)
          [⟨"src/vendor.ts", [ModuleItem.exportNamed (some "lodash") none [some "something"]]⟩,
            ⟨"src/utils.ts",
              [ModuleItem.exportNamed none (some (Declaration.varDecl [some "add"])) []]⟩],
          true, "@pkg", "src/app.ts"⟩
          ⟨"@pkg", [ImportSpec.named "something" "something"]⟩).decls,
        dd.source = "@pkg" ∧ ImportSpec.named "something" "something" ∈ dd.specifiers) ∧
      (∀ dd ∈ (rewriteDecl ⟨findExports (fun _ => false)
          [⟨"src/vendor.ts", [ModuleItem.exportNamed (some "lodash") none [some "something"]]⟩,
            ⟨"src/utils.ts",
              [ModuleItem.exportNamed none (some (Declaration.varDecl [some "add"])) []]⟩],
          true, "@pkg", "src/app.ts"⟩
          ⟨"@pkg", [ImportSpec.named "something" "something"]⟩).decls,
        dd.source ≠ "@pkg" → ImportSpec.named "something" "something" ∉ dd.specifiers) :=
  external_reexport_stays_in_remainder (fun _ => false)
    [⟨"src/vendor.ts", [ModuleItem.exportNamed (some "lodash") none [some "something"]]⟩,
      ⟨"src/utils.ts",
        [ModuleItem.exportNamed none (some (Declaration.varDecl [some "add"])) []]⟩]
    "something" "lodash" none [some "something"]
    ⟨"src/vendor.ts", [ModuleItem.exportNamed (some "lodash") none [some "something"]]⟩
    (by decide) (by decide) (by decide) (by decide) (by decide)
    true "@pkg" "src/app.ts" "something"
    ⟨"@pkg", [ImportSpec.named "something" "something"]⟩ rfl (by decide)

/-- C2 (counterexample): the claim says a name directly declared in
exactly one non-auxiliary module M resolves to M regardless of barrel
levels.  A barrel that re-exports the name by explicit specifier
(`export { add } from "./utils"`) also enters the catalog — keyed by the
barrel file — and when it is scanned first, the consumer import is
rewritten to the barrel's subpath, not to the declaring module. -/
theorem named_reexport_shadowing_counterexample :
    updateImports ⟨findExports (fun _ => false)
        [⟨"src/index.ts", [ModuleItem.exportNamed (some "./utils") none [some "add"]]⟩,
          ⟨"src/utils.ts",
            [ModuleItem.exportNamed none (some (Declaration.varDecl [some "add"])) []]⟩],
      true, "@pkg", "src/app.ts"⟩
      [⟨"@pkg", [ImportSpec.named "add" "add"]⟩] =
    ⟨[⟨"@pkg/src/index.ts", [ImportSpec.named "add" "add"]⟩], true, []⟩ := by
  decide

/-- C2 (amended): for a name directly declared in exactly one non-auxiliary
module M of the package and recorded by the scanner for no other file —
in particular, not re-exported by explicit named specifier from any other
file (explicit internal re-exports also enter the catalog, keyed by the
re-exporting file) — the flat-scan catalog resolves the name to M alone,
and a consumer import of it is routed to the group keyed by the specifier
for M; `export *` barrels contribute no catalog records, so any number of
such barrel levels between the package root and M leaves this resolution
unchanged. -/
theorem unique_direct_declaration_resolves_to_module (ig : String → Bool)
    (files : List SourceFile) (n M : String)
    (haux : isAuxiliaryFile M = false)
    (hig : ig M = false)
    (hdecl : ∃ f ∈ files, f.name = M ∧ ∃ it ∈ f.items, n ∈ directNames it)
    (honly : (files.all fun f => f.items.all fun it =>
        !(decide (n ∈ itemNames it)) || decide (f.name = M)) = true)
    (ie : Bool) (pkg fp l : String) :
    (∃ e ∈ findExports ig files, n ∈ e.exports) ∧
      (∀ e ∈ findExports ig files, n ∈ e.exports → e.source = M ∧ e.isIgnored = false) ∧
      routeSpec ⟨findExports ig files, ie, pkg, fp⟩ (ImportSpec.named l n) =
        .toGroup (mkImportPath pkg ie M) l n := by
  have hsub : ∀ it : ModuleItem, ∀ m ∈ directNames it, m ∈ itemNames it := by
    intro it m hm
    cases it with
    | exportNamed src dcl specs =>
      cases src with
      | none =>
        simp only [directNames] at hm
        simp only [itemNames]
        rw [if_neg (by exact Bool.false_ne_true)]
        exact hm
      | some s =>
        cases hm
    | exportDefault e0 => exact hm
    | exportAll src => cases hm
    | importItem src => cases hm
    | otherItem => cases hm
  rcases hdecl with ⟨f0, hf0, hfname, it0, hit0, hdn⟩
  have huniq : ∀ e ∈ findExports ig files, n ∈ e.exports → e.source = M ∧ e.isIgnored = false := by
    intro e he hen
    rcases mem_findExports ig files e he with ⟨f, hf, hei⟩
    rcases mem_scanItems _ _ _ _ hei with ⟨it, hit, hsc⟩
    have hsound := scanItem_sound _ _ _ _ hsc
    have hn_item : n ∈ itemNames it := hsound.2.2 n hen
    have hfM : f.name = M := by
      have h1 := (List.all_eq_true.mp honly) f hf
      have h2 := (List.all_eq_true.mp h1) it hit
      by_contra hfm
      have hd1 : (decide (f.name = M)) = false := by simp [hfm]
      rw [hd1, Bool.or_false] at h2
      have hd2 : (decide (n ∈ itemNames it)) = false := by simpa using h2
      exact (decide_eq_false_iff_not.mp hd2) hn_item
    exact ⟨hsound.1.trans hfM, by rw [hsound.2.1, hfM, hig]⟩
  have hexists : ∃ e ∈ findExports ig files, n ∈ e.exports := by
    rcases scanItem_complete f0.name (ig f0.name) it0 n (hsub it0 n hdn) with
      ⟨e, hesc, hen, hesrc, heig⟩
    exact ⟨e, findExports_mem_of ig files f0 hf0 e
      (scanItems_mem_of _ _ _ it0 hit0 e hesc), hen⟩
  refine ⟨hexists, huniq, ?_⟩
  have hsome : ((findExports ig files).find? (fun e => decide (n ∈ e.exports))).isSome := by
    apply List.find?_isSome.mpr
    rcases hexists with ⟨e, he, hen⟩
    exact ⟨e, he, by simpa using hen⟩
  rcases Option.isSome_iff_exists.mp hsome with ⟨e0, hfind⟩
  have he0mem : e0 ∈ findExports ig files := List.mem_of_find?_eq_some hfind
  have he0n : n ∈ e0.exports := by simpa using List.find?_some hfind
  have he0 := huniq e0 he0mem he0n
  have hroute := routeSpec_found ⟨findExports ig files, ie, pkg, fp⟩ l n e0 hfind he0.2
  rw [hroute, he0.1]

theorem unique_direct_declaration_resolves_to_module_witness :
    routeSpec ⟨findExports (fun _ => false)
        [⟨"src/index.ts", [ModuleItem.exportAll "./components"]⟩,
          ⟨"src/components/index.ts", [ModuleItem.exportAll "./Button"]⟩,
          ⟨"src/components/Button.tsx",
            [ModuleItem.exportNamed none (some (Declaration.varDecl [some "Button"])) []]⟩],
      true, "@pkg", "src/app.tsx"⟩ (ImportSpec.named "Button" "Button") =
      .toGroup (mkImportPath "@pkg" true "src/components/Button.tsx") "Button" "Button" :=
  (unique_direct_declaration_resolves_to_module (fun _ => false)
    [⟨"src/index.ts", [ModuleItem.exportAll "./components"]⟩,
      ⟨"src/components/index.ts", [ModuleItem.exportAll "./Button"]⟩,
      ⟨"src/components/Button.tsx",
        [ModuleItem.exportNamed none (some (Declaration.varDecl [some "Button"])) []]⟩]
    "Button" "src/components/Button.tsx" (by decide) rfl (by decide) (by decide)
    true "@pkg" "src/app.tsx" "Button").2.2
